import Mathlib

/-!
Verification development for the incremental changed-file lint orchestrator
of this repository (client/bin/lint.js together with its git and shell
helper modules).

Modelling conventions:
* JavaScript strings handled character-by-character (the status-text parser)
  are modelled as `List Char`; path-level strings are Lean `String`s.
* External collaborators (the subprocess runner, the filesystem, the git
  command outputs, and the ESLint engine) are modelled as explicit inputs
  collected in an `Env` record.  The repository's own logic is translated
  directly from the source.
* Side effects (console output, git queries, lint-engine invocations) are
  recorded in an explicit list of `Event`s returned next to the value, and
  a JavaScript exception is an `Except.error`.
-/

/-! ### Character-level string primitives (JavaScript semantics) -/

/-- Whitespace characters matched by a JavaScript whitespace regex class,
restricted to the ASCII range (space, tab, newline, carriage return,
vertical tab, form feed). -/
def jsIsWs (c : Char) : Bool :=
  c = ' ' || c = '\t' || c = '\n' || c = '\r' || c = '\x0b' || c = '\x0c'

/-- JavaScript `string.split` with a single-character-class separator: the
pieces of the list obtained by cutting at every character satisfying `p`.
Splitting the empty string yields one empty piece, as in JavaScript. -/
def jsSplit (p : Char → Bool) : List Char → List (List Char)
  | [] => [[]]
  | c :: cs =>
    if p c then [] :: jsSplit p cs
    else (c :: (jsSplit p cs).headD []) :: (jsSplit p cs).tail

/-- Split a string on the newline character, as `result.split('\n')` does in
`client/bin/utils/git.js`. -/
def splitOnNl : List Char → List (List Char) :=
  jsSplit (fun c => c = '\n')

/-- The whitespace-delimited tokens of one line:
`line.split(/\s+/).filter(Boolean)` from `_parseFileList`.  Splitting at
every whitespace character and then discarding empty pieces is extensionally
the same as splitting on runs of whitespace and discarding empty pieces. -/
def lineTokens (line : List Char) : List (List Char) :=
  (jsSplit jsIsWs line).filter (fun t => t ≠ [])

/-- Drop leading whitespace (first half of JavaScript `trim`). -/
def dropLead (cs : List Char) : List Char :=
  cs.dropWhile jsIsWs

/-- Drop trailing whitespace (second half of JavaScript `trim`). -/
def dropTrail (cs : List Char) : List Char :=
  (cs.reverse.dropWhile jsIsWs).reverse

/-- JavaScript `string.trim()`: remove leading and trailing whitespace. -/
def jsTrim (cs : List Char) : List Char :=
  dropTrail (dropLead cs)

/-- One parsed entry of the git status/diff output: `{ mods, file }` in
`_parseFileList`.  Either field is `none` when the corresponding token is
absent (JavaScript `undefined`). -/
structure ChangeEntry where
  mods : Option (List Char)
  file : Option (List Char)
deriving DecidableEq

/-- The entry built from one line: `mods` is token 0 and `file` is token 1
of the whitespace-split line. -/
def mkEntry (line : List Char) : ChangeEntry :=
  { mods := (lineTokens line)[0]?, file := (lineTokens line)[1]? }

/-- Translation of `_parseFileList` from `client/bin/utils/git.js`: trim the
input; an empty result gives the empty list; otherwise split into lines and
convert each line to a `ChangeEntry` from its whitespace tokens. -/
def parseFileList (s : List Char) : List ChangeEntry :=
  if jsTrim s = [] then []
  else (splitOnNl (jsTrim s)).map mkEntry

/-- Translation of `_pickOutFilenameFromList`: keep only the `file` field. -/
def pickOutFilenameFromList (fileList : List ChangeEntry) : List (Option (List Char)) :=
  fileList.map ChangeEntry.file

/-- Join lines with single newline separators; inverse view used to
quantify over well-formed status texts. -/
def joinLines : List (List Char) → List Char
  | [] => []
  | [l] => l
  | l :: ls => l ++ '\n' :: joinLines ls

/-! ### Command runner (`client/bin/utils/shell.js`) -/

/-- Observable behaviour of the external subprocess spawned for a command:
its captured standard output and standard error streams, and its exit code. -/
structure ProcessBehavior where
  stdout : String
  stderr : String
  exitCode : Int

/-- Result of `runCmd`: the captured standard output; or the failure raised
by `runCmd` itself as `new Error(stderr)` (the spec's `CommandError`); or
the rejection of the awaited promisified `exec`, which rejects with its own
error whenever the subprocess exits non-zero, before `runCmd`'s
standard-error check is ever reached. -/
inductive CommandOutcome where
  | ok (stdout : String)
  | commandError (message : String)
  | execError (exitCode : Int)
deriving DecidableEq

/-- Translation of `runCmd`.  The `await exec(cmd)` comes first: Node's
promisified `child_process.exec` rejects whenever the process exits with a
non-zero code, so in that case the rejection propagates out of `runCmd`
unchanged (the `execError` case).  Only when `exec` resolves (exit code
zero) does the repository's own logic run: destructure `{ stdout, stderr }`,
throw `new Error(stderr)` when `stderr` is truthy (a non-empty string),
otherwise return `stdout`. -/
def runCmd (p : ProcessBehavior) : CommandOutcome :=
  if p.exitCode ≠ 0 then CommandOutcome.execError p.exitCode
  else if p.stderr ≠ "" then CommandOutcome.commandError p.stderr
  else CommandOutcome.ok p.stdout

/-! ### Change-set merge (`getChangedFiles` in `client/bin/utils/git.js`) -/

/-- Order-preserving deduplication keeping first occurrences, with an
accumulator of already-seen values; this is the observable behaviour of the
lodash `_.union` of the two arrays (SameValueZero equality on strings). -/
def dedupFirstAux (seen : List String) : List String → List String
  | [] => []
  | x :: xs =>
    if x ∈ seen then dedupFirstAux seen xs
    else x :: dedupFirstAux (x :: seen) xs

/-- Lodash `_.union(a, b)`: unique values in order from both arrays. -/
def jsUnion (a b : List String) : List String :=
  dedupFirstAux [] (a ++ b)

/-- Index of the first occurrence of `x` in `l` (length of `l` when
absent); used to state the first-occurrence ordering of the union. -/
def firstIdx : List String → String → Nat
  | [], _ => 0
  | y :: ys, x => if y = x then 0 else firstIdx ys x + 1

/-! ### The orchestrator model (`client/bin/lint.js`) -/

/-- One per-file result record of the external lint engine. -/
structure FileResult where
  warningCount : Nat
  errorCount : Nat

/-- A JavaScript exception: an `Error` thrown by repository code, or the
`TypeError` raised when destructuring `undefined`. -/
inductive JsError where
  | jsError (message : String)
  | typeError (message : String)
deriving DecidableEq

/-- Retrieve `error.message`. -/
def JsError.message : JsError → String
  | JsError.jsError m => m
  | JsError.typeError m => m

/-- Outcome of one invocation of the external ESLint engine (the whole
`new ESLint` / `lintFiles` / formatter interaction): either some exception
escapes it, or it yields the formatted text and the per-file results. -/
inductive EngineOutcome where
  | throws (e : JsError)
  | returns (resultText : String) (results : List FileResult)

/-- The external world of one `lint.js` invocation: the process argument
list, the parsed outputs of the two git change queries, the filesystem
existence predicate, the answer of the diff probe for the literal `eslint`
inside `package.json`, and the lint engine's behaviour on any file set. -/
structure Env where
  argv : List String
  committedFiles : List String
  uncommittedFiles : List String
  fileExists : String → Bool
  diffEslintInPackageJson : Bool
  engine : List String → Bool → EngineOutcome

/-- Observable side effects of a run. -/
inductive Event where
  | gitQuery (cmd : String)
  | lintInvocation (files : List String) (fix : Bool)
  | log (msg : String)
  | logErr (msg : String)
deriving DecidableEq

/-- Translation of `hasArg` from `client/bin/utils/shell.js`:
`process.argv.indexOf(arg) !== -1`. -/
def hasArg (env : Env) (arg : String) : Bool :=
  env.argv.contains arg

/-- The fixed extension allow-list of `client/bin/lint.js`. -/
def fileExtensions : List String := [".tsx", ".js", ".ts", ".jsx"]

/-- The fixed source-folder allow-list of `client/bin/lint.js`. -/
def sourceFoldersToCheck : List String := ["components/", "libs/", "pages/", "services/"]

/-- The base branch constant of `client/bin/lint.js`. -/
def baseBranchName : String := "master"

/-- Translation of `filterFilesInSourceFolders`: keep files whose path
starts with one of the allowed folder prefixes.  The JavaScript `find`
result is used in boolean position; every candidate folder string is
non-empty, so this equals an existence check. -/
def filterFilesInSourceFolders (files : List String) : List String :=
  files.filter (fun file =>
    sourceFoldersToCheck.any (fun folder => folder.toList.isPrefixOf file.toList))

/-- Translation of `filterFilesOfCorrectExtension`: keep files whose path
ends with one of the allowed extensions. -/
def filterFilesOfCorrectExtension (files : List String) : List String :=
  files.filter (fun file =>
    fileExtensions.any (fun ext => ext.toList.isSuffixOf file.toList))

/-- Translation of `filterFilesThatStillExist`: keep files for which
`fs.existsSync` holds; the filesystem is the explicit predicate. -/
def filterFilesThatStillExist (fileExists : String → Bool) (files : List String) : List String :=
  files.filter fileExists

/-- The two git queries issued by `getChangedFiles`. -/
def gitQueryEventsForChangedFiles : List Event :=
  [Event.gitQuery ("git diff --name-status " ++ baseBranchName ++ "...HEAD"),
   Event.gitQuery "git status --porcelain"]

/-- Translation of `getChangedFiles`: merge the committed-since-base and
uncommitted change lists with lodash `_.union`, issuing the two git
queries.  The raw command outputs and their parsing are covered by the
character-level parser model above; here their parsed path lists are the
`Env` inputs. -/
def getChangedFiles (env : Env) : List String × List Event :=
  (jsUnion env.committedFiles env.uncommittedFiles, gitQueryEventsForChangedFiles)

/-- The two git queries issued by `diffContains(master, 'package.json',
'eslint')`. -/
def diffContainsEvents : List Event :=
  [Event.gitQuery ("git diff --unified=0 " ++ baseBranchName ++ "...HEAD package.json"),
   Event.gitQuery "git diff --unified=0 HEAD package.json"]

/-- Translation of `getFilesThatMayPossiblyInvalidateExistingLintChecks`:
push `.eslintignore` and `.eslintrc` when present in the change set, and
`package.json` when present and its diff mentions `eslint`; the diff probe
runs only when `package.json` is in the change set (JavaScript `&&`). -/
def getFilesThatMayPossiblyInvalidateExistingLintChecks
    (env : Env) (changedFiles : List String) : List String × List Event :=
  let t1 : List String := if ".eslintignore" ∈ changedFiles then [".eslintignore"] else []
  let t2 : List String := if ".eslintrc" ∈ changedFiles then [".eslintrc"] else []
  if "package.json" ∈ changedFiles then
    (t1 ++ t2 ++ (if env.diffEslintInPackageJson then ["package.json"] else []),
     diffContainsEvents)
  else (t1 ++ t2, [])

/-- Aggregated result of `runLintOnFiles`: the formatted text and the two
summed counts. -/
structure LintResult where
  resultText : String
  warningCount : Nat
  errorCount : Nat
deriving DecidableEq

/-- Translation of `runLintOnFiles`: invoke the engine inside `try`; on
success return the formatted text with the summed warning and error counts;
on any exception log an error and fall through, returning `undefined`
(`none`).  The `catch` means no exception ever escapes, hence the
`Except.ok` on both branches. -/
def runLintOnFiles (env : Env) (filesOrFolders : List String) (fix : Bool) :
    Except JsError (Option LintResult) × List Event :=
  match env.engine filesOrFolders fix with
  | EngineOutcome.throws _ =>
    (Except.ok none,
     [Event.lintInvocation filesOrFolders fix,
      Event.logErr "Error while running Linter on files"])
  | EngineOutcome.returns text results =>
    (Except.ok (some
      { resultText := text,
        warningCount := (results.map FileResult.warningCount).sum,
        errorCount := (results.map FileResult.errorCount).sum }),
     [Event.lintInvocation filesOrFolders fix])

/-- Translation of `handleLintResults`.  Destructuring `undefined` (the
`none` case) raises a `TypeError` before the function body's `try` starts.
Otherwise the result text is printed; when a count is non-zero the function
throws `new Error('')` intending a non-zero exit, but its own `catch`
swallows that throw and only logs, so the function returns normally in
both printed cases. -/
def handleLintResults (r : Option LintResult) : Except JsError Unit × List Event :=
  match r with
  | none =>
    (Except.error (JsError.typeError "Cannot destructure property of undefined"), [])
  | some res =>
    if res.errorCount ≠ 0 ∨ res.warningCount ≠ 0 then
      (Except.ok (),
       [Event.log res.resultText, Event.logErr "Error while display the lint results - "])
    else
      (Except.ok (), [Event.log res.resultText, Event.log "Lint checks passed"])

/-- The `runLintOnFiles` / `handleLintResults` call pair repeated in each
branch of `runLinting`, with JavaScript exception propagation threaded
through. -/
def lintAndHandle (env : Env) (files : List String) (fix : Bool) :
    Except JsError Unit × List Event :=
  match runLintOnFiles env files fix with
  | (Except.error e, ev) => (Except.error e, ev)
  | (Except.ok r, ev) => ((handleLintResults r).1, ev ++ (handleLintResults r).2)

/-- The `--changed` branch of `runLinting`, translated line by line: the
change set is existence-filtered immediately after extraction; the
invalidation policy runs on that filtered set; a non-empty trigger list
forces a full run; then the source-folder and extension filters apply, an
empty result reports a no-op, and otherwise the filtered files are linted. -/
def runLintingChanged (env : Env) : Except JsError Unit × List Event :=
  let changedFiles := filterFilesThatStillExist env.fileExists (getChangedFiles env).1
  let configFileChanged :=
    (getFilesThatMayPossiblyInvalidateExistingLintChecks env changedFiles).1
  let preEvents := (getChangedFiles env).2 ++
    (getFilesThatMayPossiblyInvalidateExistingLintChecks env changedFiles).2
  if configFileChanged ≠ [] then
    ((lintAndHandle env sourceFoldersToCheck (hasArg env "--fix")).1,
     preEvents ++ Event.log ("Running lint checks on all files, since changes were made to: "
         ++ String.intercalate ", " configFileChanged)
       :: (lintAndHandle env sourceFoldersToCheck (hasArg env "--fix")).2)
  else
    let filteredChangedFiles :=
      filterFilesOfCorrectExtension (filterFilesInSourceFolders changedFiles)
    if filteredChangedFiles = [] then
      (Except.ok (),
       preEvents ++ [Event.log ("There are no updated files since " ++ baseBranchName
         ++ ". No linting required.")])
    else
      ((lintAndHandle env filteredChangedFiles (hasArg env "--fix")).1,
       preEvents ++ Event.log ("Running lint checks on "
           ++ toString filteredChangedFiles.length
           ++ " files(s), which were changed since \"" ++ baseBranchName ++ "\".")
         :: (lintAndHandle env filteredChangedFiles (hasArg env "--fix")).2)

/-- Translation of `runLinting`: without `--changed` always lint the fixed
source folders; otherwise run the incremental branch. -/
def runLinting (env : Env) : Except JsError Unit × List Event :=
  if hasArg env "--changed" = false then
    ((lintAndHandle env sourceFoldersToCheck (hasArg env "--fix")).1,
     Event.log "Running lint checks on all files"
       :: (lintAndHandle env sourceFoldersToCheck (hasArg env "--fix")).2)
  else runLintingChanged env

/-- Translation of the top-level async IIFE of `client/bin/lint.js`: a run
that completes normally lets the process exit with code `0`; an exception
reaching the top logs its message (when non-empty) and exits with code
`1`. -/
def lintProcess (env : Env) : Nat × List Event :=
  match runLinting env with
  | (Except.ok _, ev) => (0, ev)
  | (Except.error e, ev) =>
    (1, ev ++ (if e.message ≠ "" then [Event.logErr e.message] else []))

/-- Modelled from the spec: the `--changed` branch as claim C3 describes
it, with the three file filters composed source-folder first, extension
second, and on-disk existence last, so deleted files stay in the change
set until after the folder and extension filters.  Used only to compare
with the translated `runLintingChanged`. -/
def runLintingChangedClaimOrder (env : Env) : Except JsError Unit × List Event :=
  let changedFiles := (getChangedFiles env).1
  let configFileChanged :=
    (getFilesThatMayPossiblyInvalidateExistingLintChecks env changedFiles).1
  let preEvents := (getChangedFiles env).2 ++
    (getFilesThatMayPossiblyInvalidateExistingLintChecks env changedFiles).2
  if configFileChanged ≠ [] then
    ((lintAndHandle env sourceFoldersToCheck (hasArg env "--fix")).1,
     preEvents ++ Event.log ("Running lint checks on all files, since changes were made to: "
         ++ String.intercalate ", " configFileChanged)
       :: (lintAndHandle env sourceFoldersToCheck (hasArg env "--fix")).2)
  else
    let filteredChangedFiles := filterFilesThatStillExist env.fileExists
      (filterFilesOfCorrectExtension (filterFilesInSourceFolders changedFiles))
    if filteredChangedFiles = [] then
      (Except.ok (),
       preEvents ++ [Event.log ("There are no updated files since " ++ baseBranchName
         ++ ". No linting required.")])
    else
      ((lintAndHandle env filteredChangedFiles (hasArg env "--fix")).1,
       preEvents ++ Event.log ("Running lint checks on "
           ++ toString filteredChangedFiles.length
           ++ " files(s), which were changed since \"" ++ baseBranchName ++ "\".")
         :: (lintAndHandle env filteredChangedFiles (hasArg env "--fix")).2)

/-- Modelled from the spec: the whole orchestrator under claim C3's filter
order. -/
def runLintingClaimOrder (env : Env) : Except JsError Unit × List Event :=
  if hasArg env "--changed" = false then
    ((lintAndHandle env sourceFoldersToCheck (hasArg env "--fix")).1,
     Event.log "Running lint checks on all files"
       :: (lintAndHandle env sourceFoldersToCheck (hasArg env "--fix")).2)
  else runLintingChangedClaimOrder env

/-! ### Concrete environments used as explicit inputs in the theorems -/

/-- A full run (no flags) in which the engine reports one error. -/
def envLintError : Env :=
  { argv := ["/usr/bin/node", "client/bin/lint.js"],
    committedFiles := [], uncommittedFiles := [],
    fileExists := fun _ => true,
    diffEslintInPackageJson := false,
    engine := fun _ _ =>
      EngineOutcome.returns "problems found" [{ warningCount := 0, errorCount := 1 }] }

/-- An incremental run in which the only change is a deleted `.eslintrc`. -/
def envDeletedEslintrc : Env :=
  { argv := ["/usr/bin/node", "client/bin/lint.js", "--changed"],
    committedFiles := [".eslintrc"], uncommittedFiles := [],
    fileExists := fun _ => false,
    diffEslintInPackageJson := false,
    engine := fun _ _ => EngineOutcome.returns "" [] }

/-- An incremental run whose only change is one existing component file. -/
def envOneComponent : Env :=
  { argv := ["/usr/bin/node", "client/bin/lint.js", "--changed"],
    committedFiles := ["components/a.tsx"], uncommittedFiles := [],
    fileExists := fun _ => true,
    diffEslintInPackageJson := false,
    engine := fun _ _ => EngineOutcome.returns "" [] }

/-- An incremental run whose only change is a markdown file. -/
def envOnlyReadme : Env :=
  { argv := ["/usr/bin/node", "client/bin/lint.js", "--changed"],
    committedFiles := ["README.md"], uncommittedFiles := [],
    fileExists := fun _ => true,
    diffEslintInPackageJson := false,
    engine := fun _ _ => EngineOutcome.returns "" [] }

/-- A full run whose engine throws. -/
def envEngineThrows : Env :=
  { argv := ["/usr/bin/node", "client/bin/lint.js"],
    committedFiles := [], uncommittedFiles := [],
    fileExists := fun _ => true,
    diffEslintInPackageJson := false,
    engine := fun _ _ => EngineOutcome.throws (JsError.jsError "engine exploded") }

/-- Replace the last line of a line list by its trailing-whitespace-trimmed
form; describes what trimming the whole text does to its line structure. -/
def trimLastLine : List (List Char) → List (List Char)
  | [] => []
  | [l] => [dropTrail l]
  | l :: ls => l :: trimLastLine ls

/-- A concrete well-formed two-line status text (as its line list), used as
an explicit input below. -/
def wfLines : List (List Char) :=
  [['A', 'M', ' ', 'a', '.', 'j', 's'], ['D', '\t', 'b', '.', 'j', 's']]

/-! ### Helper lemmas -/

theorem dedupFirstAux_mem (l : List String) :
    ∀ seen x, x ∈ dedupFirstAux seen l ↔ (x ∈ l ∧ x ∉ seen) := by
  induction l with
  | nil => intro seen x; simp [dedupFirstAux]
  | cons h t ih =>
    intro seen x
    by_cases hs : h ∈ seen
    · simp only [dedupFirstAux, if_pos hs, ih]
      constructor
      · rintro ⟨hxt, hxs⟩
        exact ⟨List.mem_cons_of_mem _ hxt, hxs⟩
      · rintro ⟨hx, hxs⟩
        rcases List.mem_cons.mp hx with rfl | hxt
        · exact absurd hs hxs
        · exact ⟨hxt, hxs⟩
    · simp only [dedupFirstAux, if_neg hs, List.mem_cons, ih]
      by_cases hxh : x = h
      · subst hxh; simp [hs]
      · simp [hxh]

theorem dedupFirstAux_nodup (l : List String) :
    ∀ seen, (dedupFirstAux seen l).Nodup := by
  induction l with
  | nil => intro seen; simp [dedupFirstAux]
  | cons h t ih =>
    intro seen
    by_cases hs : h ∈ seen
    · simpa [dedupFirstAux, if_pos hs] using ih seen
    · rw [dedupFirstAux, if_neg hs]
      refine List.Nodup.cons ?_ (ih (h :: seen))
      intro hmem
      exact ((dedupFirstAux_mem t (h :: seen) h).mp hmem).2 (List.mem_cons_self h seen)

theorem firstIdx_cons_ne (y x : String) (l : List String) (h : y ≠ x) :
    firstIdx (y :: l) x = firstIdx l x + 1 := by
  simp [firstIdx, h]

theorem dedupFirstAux_pairwise (l : List String) :
    ∀ seen, (dedupFirstAux seen l).Pairwise (fun a b => firstIdx l a < firstIdx l b) := by
  induction l with
  | nil => intro seen; simp [dedupFirstAux]
  | cons h t ih =>
    intro seen
    by_cases hs : h ∈ seen
    · rw [dedupFirstAux, if_pos hs]
      refine List.Pairwise.imp_of_mem ?_ (ih seen)
      intro a b ha hb hab
      have ha' := (dedupFirstAux_mem t seen a).mp ha
      have hb' := (dedupFirstAux_mem t seen b).mp hb
      have hane : h ≠ a := fun he => ha'.2 (he ▸ hs)
      have hbne : h ≠ b := fun he => hb'.2 (he ▸ hs)
      rw [firstIdx_cons_ne _ _ _ hane, firstIdx_cons_ne _ _ _ hbne]
      omega
    · rw [dedupFirstAux, if_neg hs]
      refine List.Pairwise.cons ?_ ?_
      · intro b hb
        have hb' := (dedupFirstAux_mem t (h :: seen) b).mp hb
        have hbne : h ≠ b := fun he => hb'.2 (he ▸ List.mem_cons_self h seen)
        rw [firstIdx_cons_ne _ _ _ hbne]
        simp [firstIdx]
      · refine List.Pairwise.imp_of_mem ?_ (ih (h :: seen))
        intro a b ha hb hab
        have ha' := (dedupFirstAux_mem t (h :: seen) a).mp ha
        have hb' := (dedupFirstAux_mem t (h :: seen) b).mp hb
        have hane : h ≠ a := fun he => ha'.2 (he ▸ List.mem_cons_self h seen)
        have hbne : h ≠ b := fun he => hb'.2 (he ▸ List.mem_cons_self h seen)
        rw [firstIdx_cons_ne _ _ _ hane, firstIdx_cons_ne _ _ _ hbne]
        omega

theorem jsUnion_mem (a b : List String) (x : String) :
    x ∈ jsUnion a b ↔ x ∈ a ∨ x ∈ b := by
  simp [jsUnion, dedupFirstAux_mem]

/-! ### Claim theorems -/

/-- Claim C7 counterexample: the command runner's outcome is not a
function of the streams alone, because the awaited promisified `exec`
rejects on any non-zero exit before the standard-error check runs.  Two
processes with identical streams but exit codes `0` and `1` give different
outcomes (so "regardless of the process's exit code" fails, and an empty
standard error does not guarantee the captured standard output is
returned), and a process writing to standard error while exiting `1` fails
with `exec`'s own error, not with the `CommandError` built from the
standard-error text. -/
theorem runCmd_exitCode_counterexample :
    runCmd { stdout := "out", stderr := "", exitCode := 0 } = CommandOutcome.ok "out" ∧
    runCmd { stdout := "out", stderr := "", exitCode := 1 } ≠ CommandOutcome.ok "out" ∧
    runCmd { stdout := "out", stderr := "", exitCode := 1 } ≠
      runCmd { stdout := "out", stderr := "", exitCode := 0 } ∧
    runCmd { stdout := "", stderr := "warning", exitCode := 1 } ≠
      CommandOutcome.commandError "warning" := by
  decide

/-- Claim C7 amended: the command runner first awaits the promisified
`exec`, which fails with its own error whenever the process exits non-zero,
whatever the streams hold; when the process exits `0`, the runner fails
with the `CommandError` carrying the standard-error text whenever the
process wrote a non-empty string to standard error, and returns the
captured standard output otherwise.  It succeeds only when the exit code
is `0` and standard error is empty. -/
theorem runCmd_exec_contract (p : ProcessBehavior) :
    (p.exitCode ≠ 0 → runCmd p = CommandOutcome.execError p.exitCode) ∧
    (p.exitCode = 0 → p.stderr = "" → runCmd p = CommandOutcome.ok p.stdout) ∧
    (p.exitCode = 0 → p.stderr ≠ "" → runCmd p = CommandOutcome.commandError p.stderr) ∧
    (∀ s, runCmd p = CommandOutcome.ok s → p.stderr = "" ∧ p.exitCode = 0) := by
  refine ⟨?_, ?_, ?_, ?_⟩
  · intro h
    simp [runCmd, h]
  · intro h he
    simp [runCmd, h, he]
  · intro h he
    simp [runCmd, h, he]
  · intro s h
    by_cases hc : p.exitCode = 0
    · by_cases he : p.stderr = ""
      · exact ⟨he, hc⟩
      · simp [runCmd, hc, he] at h
    · simp [runCmd, hc] at h

/-- Witness for `runCmd_exec_contract` at concrete process behaviours. -/
theorem runCmd_exec_contract_witness :
    runCmd { stdout := "out", stderr := "", exitCode := 0 } = CommandOutcome.ok "out" ∧
    runCmd { stdout := "out", stderr := "warning", exitCode := 0 } =
      CommandOutcome.commandError "warning" ∧
    runCmd { stdout := "out", stderr := "", exitCode := 1 } =
      CommandOutcome.execError 1 :=
  ⟨(runCmd_exec_contract _).2.1 rfl rfl,
   (runCmd_exec_contract _).2.2.1 rfl (by decide),
   (runCmd_exec_contract _).1 (by decide)⟩

/-- Claim C6: the merged change set is the order-preserving set union of
the committed and uncommitted path lists: it has no duplicate paths, it
contains a path exactly when one of the two lists does, and its elements
are ordered by first occurrence in the committed-then-uncommitted
traversal. -/
theorem getChangedFiles_union_spec (env : Env) :
    ((getChangedFiles env).1).Nodup ∧
    (∀ x, x ∈ (getChangedFiles env).1 ↔
      x ∈ env.committedFiles ∨ x ∈ env.uncommittedFiles) ∧
    ((getChangedFiles env).1).Pairwise (fun a b =>
      firstIdx (env.committedFiles ++ env.uncommittedFiles) a <
        firstIdx (env.committedFiles ++ env.uncommittedFiles) b) :=
  ⟨dedupFirstAux_nodup _ [],
   fun x => jsUnion_mem _ _ x,
   dedupFirstAux_pairwise _ []⟩

/-- Claim C4: the trigger list contains exactly those of the three fixed
names, in the fixed order, whose rule fires; in particular the change set
containing only `.eslintrc` yields exactly `[.eslintrc]`. -/
theorem invalidation_triggers_spec (env : Env) (changedFiles : List String) :
    (getFilesThatMayPossiblyInvalidateExistingLintChecks env changedFiles).1 =
      (if ".eslintignore" ∈ changedFiles then [".eslintignore"] else []) ++
      (if ".eslintrc" ∈ changedFiles then [".eslintrc"] else []) ++
      (if "package.json" ∈ changedFiles ∧ env.diffEslintInPackageJson = true
        then ["package.json"] else []) ∧
    (getFilesThatMayPossiblyInvalidateExistingLintChecks env [".eslintrc"]).1 =
      [".eslintrc"] := by
  constructor
  · unfold getFilesThatMayPossiblyInvalidateExistingLintChecks
    by_cases hp : "package.json" ∈ changedFiles
    · by_cases hd : env.diffEslintInPackageJson = true
      · simp [hp, hd]
      · simp [hp, hd]
    · simp [hp]
  · simp [getFilesThatMayPossiblyInvalidateExistingLintChecks]

/-- Claim C2: whenever the external lint engine invocation throws, the
lint-running operation catches it, logs the fixed error message, and
returns normally (no exception propagates to the caller) with no result
value produced. -/
theorem runLintOnFiles_absorbs_engine_failure (env : Env) (files : List String)
    (fix : Bool) (e : JsError) (h : env.engine files fix = EngineOutcome.throws e) :
    runLintOnFiles env files fix =
      (Except.ok none,
       [Event.lintInvocation files fix,
        Event.logErr "Error while running Linter on files"]) := by
  unfold runLintOnFiles
  rw [h]

/-- Witness for `runLintOnFiles_absorbs_engine_failure` on a concrete
throwing engine. -/
theorem runLintOnFiles_absorbs_engine_failure_witness :
    runLintOnFiles envEngineThrows sourceFoldersToCheck false =
      (Except.ok none,
       [Event.lintInvocation sourceFoldersToCheck false,
        Event.logErr "Error while running Linter on files"]) :=
  runLintOnFiles_absorbs_engine_failure envEngineThrows sourceFoldersToCheck false
    (JsError.jsError "engine exploded") rfl

theorem lintAndHandle_trace (env : Env) (files : List String) (fix : Bool) :
    ∃ tail : List Event,
      (lintAndHandle env files fix).2 = Event.lintInvocation files fix :: tail ∧
      (∀ c, Event.gitQuery c ∉ tail) ∧
      (∀ fs fx2, Event.lintInvocation fs fx2 ∉ tail) := by
  unfold lintAndHandle runLintOnFiles
  cases env.engine files fix with
  | throws e =>
    exact ⟨[Event.logErr "Error while running Linter on files"],
      by simp [handleLintResults], by simp, by simp⟩
  | returns text results =>
    by_cases hc : (results.map FileResult.errorCount).sum ≠ 0 ∨
        (results.map FileResult.warningCount).sum ≠ 0
    · exact ⟨[Event.log text, Event.logErr "Error while display the lint results - "],
        by simp [handleLintResults, hc], by simp, by simp⟩
    · exact ⟨[Event.log text, Event.log "Lint checks passed"],
        by simp [handleLintResults, hc], by simp, by simp⟩

theorem lintAndHandle_no_gitQuery (env : Env) (files : List String) (fix : Bool) :
    ∀ c, Event.gitQuery c ∉ (lintAndHandle env files fix).2 := by
  obtain ⟨tail, he, hg, -⟩ := lintAndHandle_trace env files fix
  intro c hmem
  rw [he] at hmem
  rcases List.mem_cons.mp hmem with h | h
  · exact Event.noConfusion h
  · exact hg c h

theorem lintAndHandle_inv_mem (env : Env) (files : List String) (fix : Bool) :
    Event.lintInvocation files fix ∈ (lintAndHandle env files fix).2 := by
  obtain ⟨tail, he, -, -⟩ := lintAndHandle_trace env files fix
  rw [he]
  exact List.mem_cons_self _ _

theorem lintAndHandle_inv_eq (env : Env) (files : List String) (fix : Bool)
    (fs : List String) (fx2 : Bool)
    (h : Event.lintInvocation fs fx2 ∈ (lintAndHandle env files fix).2) :
    fs = files := by
  obtain ⟨tail, he, -, hl⟩ := lintAndHandle_trace env files fix
  rw [he] at h
  rcases List.mem_cons.mp h with h | h
  · injection h with h1 h2
  · exact absurd h (hl fs fx2)

theorem invalidationEvents_no_lint (env : Env) (cf : List String) :
    ∀ fs fx, Event.lintInvocation fs fx ∉
      (getFilesThatMayPossiblyInvalidateExistingLintChecks env cf).2 := by
  intro fs fx
  unfold getFilesThatMayPossiblyInvalidateExistingLintChecks
  by_cases hp : "package.json" ∈ cf
  · simp [hp, diffContainsEvents]
  · simp [hp]

theorem gitQueryEvents_no_lint :
    ∀ fs fx, Event.lintInvocation fs fx ∉ gitQueryEventsForChangedFiles := by
  intro fs fx
  simp [gitQueryEventsForChangedFiles]

/-- Claim C9: when `--changed` is absent the orchestrator performs a
full-repository run over the fixed source folders, issues no git queries,
and its behaviour is independent of the git state: two environments that
agree on the argument list and the lint engine (but may differ in
changed-file sets, diff contents and filesystem) produce identical runs. -/
theorem fullRun_when_flag_absent (env : Env) (h : hasArg env "--changed" = false) :
    (∀ c, Event.gitQuery c ∉ (runLinting env).2) ∧
    Event.lintInvocation sourceFoldersToCheck (hasArg env "--fix") ∈ (runLinting env).2 ∧
    (∀ env2 : Env, env2.argv = env.argv → env2.engine = env.engine →
      runLinting env2 = runLinting env) := by
  have hargs : ∀ env2 : Env, env2.argv = env.argv → env2.engine = env.engine →
      runLinting env2 = runLinting env := by
    intro env2 h1 h2
    have hArg : ∀ a, hasArg env2 a = hasArg env a := by
      intro a; rw [hasArg, hasArg, h1]
    have hL : ∀ fs fx, lintAndHandle env2 fs fx = lintAndHandle env fs fx := by
      intro fs fx
      unfold lintAndHandle runLintOnFiles
      rw [h2]
    rw [runLinting, runLinting, hArg "--changed", if_pos h, if_pos h, hL, hArg "--fix"]
  refine ⟨?_, ?_, hargs⟩
  · intro c hmem
    rw [runLinting, if_pos h] at hmem
    rcases List.mem_cons.mp hmem with hh | hh
    · exact Event.noConfusion hh
    · exact lintAndHandle_no_gitQuery env sourceFoldersToCheck (hasArg env "--fix") c hh
  · rw [runLinting, if_pos h]
    exact List.mem_cons_of_mem _
      (lintAndHandle_inv_mem env sourceFoldersToCheck (hasArg env "--fix"))

/-- Witness for `fullRun_when_flag_absent` on a concrete flagless run. -/
theorem fullRun_when_flag_absent_witness :
    (Event.gitQuery "git status --porcelain" ∉ (runLinting envLintError).2) ∧
    Event.lintInvocation sourceFoldersToCheck (hasArg envLintError "--fix")
      ∈ (runLinting envLintError).2 :=
  ⟨(fullRun_when_flag_absent envLintError (by decide)).1 _,
   (fullRun_when_flag_absent envLintError (by decide)).2.1⟩

/-- Claim C8: in an incremental run with no invalidation triggers and an
empty filtered change set, the orchestrator performs no lint-engine
invocation, reports that no linting is required, and the process exits
with code `0`. -/
theorem noOpRun_spec (env : Env)
    (h : hasArg env "--changed" = true)
    (ht : (getFilesThatMayPossiblyInvalidateExistingLintChecks env
        (filterFilesThatStillExist env.fileExists (getChangedFiles env).1)).1 = [])
    (hf : filterFilesOfCorrectExtension (filterFilesInSourceFolders
        (filterFilesThatStillExist env.fileExists (getChangedFiles env).1)) = []) :
    (lintProcess env).1 = 0 ∧
    (∀ fs fx, Event.lintInvocation fs fx ∉ (lintProcess env).2) ∧
    Event.log ("There are no updated files since " ++ baseBranchName
      ++ ". No linting required.") ∈ (lintProcess env).2 := by
  have hrun : runLinting env = (Except.ok (),
      ((getChangedFiles env).2 ++
        (getFilesThatMayPossiblyInvalidateExistingLintChecks env
          (filterFilesThatStillExist env.fileExists (getChangedFiles env).1)).2) ++
      [Event.log ("There are no updated files since " ++ baseBranchName
        ++ ". No linting required.")]) := by
    rw [runLinting, if_neg (by simp [h]), runLintingChanged]
    simp only [ht, hf]
    simp
  have hproc : lintProcess env = (0,
      ((getChangedFiles env).2 ++
        (getFilesThatMayPossiblyInvalidateExistingLintChecks env
          (filterFilesThatStillExist env.fileExists (getChangedFiles env).1)).2) ++
      [Event.log ("There are no updated files since " ++ baseBranchName
        ++ ". No linting required.")]) := by
    rw [lintProcess, hrun]
  rw [hproc]
  refine ⟨rfl, ?_, ?_⟩
  · intro fs fx hmem
    rcases List.mem_append.mp hmem with hmem | hmem
    · rcases List.mem_append.mp hmem with hmem | hmem
      · exact gitQueryEvents_no_lint fs fx hmem
      · exact invalidationEvents_no_lint env _ fs fx hmem
    · simp at hmem
  · exact List.mem_append_right _ (List.mem_singleton.mpr rfl)

/-- Witness for `noOpRun_spec`: the only change is an existing markdown
file, which every filter removes. -/
theorem noOpRun_spec_witness :
    (lintProcess envOnlyReadme).1 = 0 ∧
    Event.lintInvocation sourceFoldersToCheck false ∉ (lintProcess envOnlyReadme).2 ∧
    Event.log ("There are no updated files since " ++ baseBranchName
      ++ ". No linting required.") ∈ (lintProcess envOnlyReadme).2 :=
  ⟨(noOpRun_spec envOnlyReadme (by decide) (by decide) (by decide)).1,
   (noOpRun_spec envOnlyReadme (by decide) (by decide) (by decide)).2.1
     sourceFoldersToCheck false,
   (noOpRun_spec envOnlyReadme (by decide) (by decide) (by decide)).2.2⟩

/-- Claim C10: each of the three file filters returns a subsequence of its
input, and any path list handed to the lint engine is either the fixed
source-folder list (full run) or a subset of the extracted change set
(filtered run). -/
theorem filters_sublist_spec (env : Env) (files : List String) :
    List.Sublist (filterFilesInSourceFolders files) files ∧
    List.Sublist (filterFilesOfCorrectExtension files) files ∧
    List.Sublist (filterFilesThatStillExist env.fileExists files) files ∧
    (∀ fs fx, Event.lintInvocation fs fx ∈ (runLinting env).2 →
      fs = sourceFoldersToCheck ∨
        fs ⊆ jsUnion env.committedFiles env.uncommittedFiles) := by
  refine ⟨List.filter_sublist files, List.filter_sublist files,
    List.filter_sublist files, ?_⟩
  intro fs fx hmem
  rw [runLinting] at hmem
  by_cases hch : hasArg env "--changed" = false
  · rw [if_pos hch] at hmem
    rcases List.mem_cons.mp hmem with hh | hh
    · exact absurd hh (by simp)
    · exact Or.inl (lintAndHandle_inv_eq env _ _ fs fx hh)
  · rw [if_neg hch, runLintingChanged] at hmem
    simp only [] at hmem
    split at hmem
    · rcases List.mem_append.mp hmem with hh | hh
      · rcases List.mem_append.mp hh with hh | hh
        · exact absurd hh (gitQueryEvents_no_lint fs fx)
        · exact absurd hh (invalidationEvents_no_lint env _ fs fx)
      · rcases List.mem_cons.mp hh with hh | hh
        · exact absurd hh (by simp)
        · exact Or.inl (lintAndHandle_inv_eq env _ _ fs fx hh)
    · split at hmem
      · rcases List.mem_append.mp hmem with hh | hh
        · rcases List.mem_append.mp hh with hh | hh
          · exact absurd hh (gitQueryEvents_no_lint fs fx)
          · exact absurd hh (invalidationEvents_no_lint env _ fs fx)
        · exact absurd hh (by simp)
      · rcases List.mem_append.mp hmem with hh | hh
        · rcases List.mem_append.mp hh with hh | hh
          · exact absurd hh (gitQueryEvents_no_lint fs fx)
          · exact absurd hh (invalidationEvents_no_lint env _ fs fx)
        · rcases List.mem_cons.mp hh with hh | hh
          · exact absurd hh (by simp)
          · refine Or.inr ?_
            have := lintAndHandle_inv_eq env _ _ fs fx hh
            subst this
            intro x hx
            have h1 : x ∈ filterFilesInSourceFolders (filterFilesThatStillExist
                env.fileExists (getChangedFiles env).1) :=
              List.filter_subset' _ hx
            have h2 : x ∈ filterFilesThatStillExist env.fileExists
                (getChangedFiles env).1 :=
              List.filter_subset' _ h1
            exact List.filter_subset' _ h2

/-- Witness for `filters_sublist_spec` at a concrete incremental run. -/
theorem filters_sublist_spec_witness :
    List.Sublist (filterFilesInSourceFolders ["components/a.tsx", "README.md"])
      ["components/a.tsx", "README.md"] ∧
    (["components/a.tsx"] = sourceFoldersToCheck ∨
      ["components/a.tsx"] ⊆ jsUnion envOneComponent.committedFiles
        envOneComponent.uncommittedFiles) :=
  ⟨(filters_sublist_spec envOneComponent ["components/a.tsx", "README.md"]).1,
   (filters_sublist_spec envOneComponent ["components/a.tsx", "README.md"]).2.2.2
     ["components/a.tsx"] false (by decide)⟩

/-- Claim C1 failing input: a run whose lint results carry one error
prints the results, but the `Error` thrown to force a non-zero exit is
caught by `handleLintResults`' own `catch`, so the run completes normally
and the process exits with code `0`, not `1`. -/
theorem reported_errors_still_exit_zero :
    (lintProcess envLintError).1 = 0 ∧
    Event.log "problems found" ∈ (lintProcess envLintError).2 ∧
    Event.logErr "Error while display the lint results - "
      ∈ (lintProcess envLintError).2 := by
  decide

/-- Claim C3 counterexample: with `--changed` and a deleted `.eslintrc` as
the only change, the translated orchestrator existence-filters the change
set first, sees no invalidation trigger and no lintable file, and performs
no lint invocation at all; the claim's existence-last composition would
keep `.eslintrc` in the change set the policy inspects and force a full
run over the source folders. -/
theorem filterOrder_counterexample :
    (runLinting envDeletedEslintrc).2 =
      gitQueryEventsForChangedFiles ++
        [Event.log "There are no updated files since master. No linting required."] ∧
    Event.lintInvocation sourceFoldersToCheck false
      ∈ (runLintingClaimOrder envDeletedEslintrc).2 := by
  decide

/-- Claim C3 amended: in an incremental run the on-disk-existence filter is
applied first, immediately after extracting the change set (so deleted
files are removed before the invalidation-trigger computation), and the
source-folder-prefix filter followed by the file-extension filter are
applied afterwards; the lint engine then receives exactly that
extension-of-folder-of-existence filtering of the extracted change set. -/
theorem filterOrder_amended (env : Env) (h : hasArg env "--changed" = true)
    (ht : (getFilesThatMayPossiblyInvalidateExistingLintChecks env
        (filterFilesThatStillExist env.fileExists (getChangedFiles env).1)).1 = [])
    (hne : filterFilesOfCorrectExtension (filterFilesInSourceFolders
        (filterFilesThatStillExist env.fileExists (getChangedFiles env).1)) ≠ []) :
    Event.lintInvocation
      (filterFilesOfCorrectExtension (filterFilesInSourceFolders
        (filterFilesThatStillExist env.fileExists
          (jsUnion env.committedFiles env.uncommittedFiles))))
      (hasArg env "--fix") ∈ (runLinting env).2 := by
  rw [runLinting, if_neg (by simp [h]), runLintingChanged]
  simp only [ht, hne, ne_eq, not_true_eq_false, not_false_eq_true, ite_false, ite_true]
  refine List.mem_append_right _ (List.mem_cons_of_mem _ ?_)
  exact lintAndHandle_inv_mem env _ _

/-- Witness for `filterOrder_amended`: one existing component file. -/
theorem filterOrder_amended_witness :
    Event.lintInvocation ["components/a.tsx"] false
      ∈ (runLinting envOneComponent).2 :=
  filterOrder_amended envOneComponent (by decide) (by decide) (by decide)

theorem jsSplit_ne_nil (p : Char → Bool) (cs : List Char) : jsSplit p cs ≠ [] := by
  cases cs with
  | nil => simp [jsSplit]
  | cons c t =>
    by_cases hp : p c = true <;> simp [jsSplit, hp]

theorem jsSplit_no_sep (p : Char → Bool) :
    ∀ l : List Char, (∀ c ∈ l, p c = false) → jsSplit p l = [l] := by
  intro l
  induction l with
  | nil => intro _; rfl
  | cons c t ih =>
    intro h
    have hc : p c = false := h c (List.mem_cons_self c t)
    have ht := ih (fun x hx => h x (List.mem_cons_of_mem c hx))
    simp [jsSplit, hc, ht]

theorem jsSplit_append_sep (p : Char → Bool) (c0 : Char) (hc : p c0 = true) :
    ∀ (a b : List Char), (∀ c ∈ a, p c = false) →
      jsSplit p (a ++ c0 :: b) = a :: jsSplit p b := by
  intro a
  induction a with
  | nil => intro b _; simp [jsSplit, hc]
  | cons x t ih =>
    intro b h
    have hx : p x = false := h x (List.mem_cons_self x t)
    have ht := ih b (fun y hy => h y (List.mem_cons_of_mem x hy))
    simp [jsSplit, hx, ht]

theorem joinLines_cons_cons (l l2 : List Char) (t : List (List Char)) :
    joinLines (l :: l2 :: t) = l ++ '\n' :: joinLines (l2 :: t) := rfl

theorem splitOnNl_joinLines :
    ∀ ls : List (List Char), ls ≠ [] → (∀ l ∈ ls, '\n' ∉ l) →
      splitOnNl (joinLines ls) = ls := by
  intro ls
  induction ls with
  | nil => intro h; exact absurd rfl h
  | cons l rest ih =>
    intro _ h
    have hl : ∀ c ∈ l, decide (c = '\n') = false := by
      intro c hcl
      exact decide_eq_false (fun he => h l (List.mem_cons_self l rest) (he ▸ hcl))
    cases rest with
    | nil => exact jsSplit_no_sep _ l hl
    | cons l2 t =>
      rw [joinLines_cons_cons]
      show jsSplit _ (l ++ '\n' :: joinLines (l2 :: t)) = l :: l2 :: t
      rw [jsSplit_append_sep _ '\n' (by simp) l (joinLines (l2 :: t)) hl]
      have := ih (by simp) (fun x hx => h x (List.mem_cons_of_mem l hx))
      rw [show jsSplit (fun c => decide (c = '\n')) (joinLines (l2 :: t)) =
        splitOnNl (joinLines (l2 :: t)) from rfl, this]

theorem jsSplit_ws_piece_nil :
    ∀ t : List Char, (∀ c ∈ t, jsIsWs c = true) →
      ∀ piece ∈ jsSplit jsIsWs t, piece = [] := by
  intro t
  induction t with
  | nil =>
    intro _ piece hp
    simp [jsSplit] at hp
    exact hp
  | cons c s ih =>
    intro h piece hp
    have hc : jsIsWs c = true := h c (List.mem_cons_self c s)
    rw [show jsSplit jsIsWs (c :: s) = [] :: jsSplit jsIsWs s from by
      simp [jsSplit, hc]] at hp
    rcases List.mem_cons.mp hp with rfl | hp'
    · rfl
    · exact ih (fun x hx => h x (List.mem_cons_of_mem c hx)) piece hp'

theorem jsSplit_ws_append (t : List Char) (ht : ∀ c ∈ t, jsIsWs c = true) :
    ∀ s : List Char,
      ((jsSplit jsIsWs (s ++ t)).headD [] = (jsSplit jsIsWs s).headD []) ∧
      ((jsSplit jsIsWs (s ++ t)).tail.filter (fun x => x ≠ []) =
        (jsSplit jsIsWs s).tail.filter (fun x => x ≠ [])) ∧
      lineTokens (s ++ t) = lineTokens s := by
  intro s
  induction s with
  | nil =>
    have hall := jsSplit_ws_piece_nil t ht
    refine ⟨?_, ?_, ?_⟩
    · cases hsp : jsSplit jsIsWs t with
      | nil => exact absurd hsp (jsSplit_ne_nil jsIsWs t)
      | cons a r =>
        have ha : a = [] := hall a (hsp ▸ List.mem_cons_self a r)
        rw [List.nil_append, hsp, ha]
        rfl
    · cases hsp : jsSplit jsIsWs t with
      | nil => exact absurd hsp (jsSplit_ne_nil jsIsWs t)
      | cons a r =>
        have hr : ∀ x ∈ r, x = [] := fun x hx =>
          hall x (hsp ▸ List.mem_cons_of_mem a hx)
        simp only [List.nil_append, hsp, List.tail_cons]
        rw [List.filter_eq_nil_iff.mpr (fun x hx => by simp [hr x hx])]
        rfl
    · show lineTokens ([] ++ t) = lineTokens []
      rw [List.nil_append]
      rw [show lineTokens [] = [] from rfl]
      exact List.filter_eq_nil_iff.mpr (fun x hx => by simp [hall x hx])
  | cons c s ih =>
    obtain ⟨ih1, ih2, ih3⟩ := ih
    by_cases hc : jsIsWs c = true
    · have e1 : jsSplit jsIsWs (c :: (s ++ t)) = [] :: jsSplit jsIsWs (s ++ t) := by
        simp [jsSplit, hc]
      have e2 : jsSplit jsIsWs (c :: s) = [] :: jsSplit jsIsWs s := by
        simp [jsSplit, hc]
      have h3 := ih3
      rw [lineTokens, lineTokens] at h3
      refine ⟨?_, ?_, ?_⟩
      · rw [List.cons_append, e1, e2, List.headD_cons, List.headD_cons]
      · rw [List.cons_append, e1, e2, List.tail_cons, List.tail_cons]
        exact h3
      · show lineTokens ((c :: s) ++ t) = lineTokens (c :: s)
        rw [List.cons_append, lineTokens, lineTokens, e1, e2]
        simp only [List.filter_cons]
        simpa using h3
    · have e1 : jsSplit jsIsWs (c :: (s ++ t)) =
          (c :: (jsSplit jsIsWs (s ++ t)).headD []) :: (jsSplit jsIsWs (s ++ t)).tail := by
        simp [jsSplit, hc]
      have e2 : jsSplit jsIsWs (c :: s) =
          (c :: (jsSplit jsIsWs s).headD []) :: (jsSplit jsIsWs s).tail := by
        simp [jsSplit, hc]
      refine ⟨?_, ?_, ?_⟩
      · rw [List.cons_append, e1, e2, List.headD_cons, List.headD_cons, ih1]
      · rw [List.cons_append, e1, e2, List.tail_cons, List.tail_cons, ih2]
      · show lineTokens ((c :: s) ++ t) = lineTokens (c :: s)
        rw [List.cons_append, lineTokens, lineTokens, e1, e2]
        simp only [List.filter_cons]
        rw [ih1, ih2]

theorem lineTokens_append_ws (s t : List Char) (ht : ∀ c ∈ t, jsIsWs c = true) :
    lineTokens (s ++ t) = lineTokens s :=
  (jsSplit_ws_append t ht s).2.2

theorem lineTokens_all_ws (l : List Char) (h : ∀ c ∈ l, jsIsWs c = true) :
    lineTokens l = [] := by
  have := (jsSplit_ws_append l h []).2.2
  simpa using this

theorem lineTokens_dropLead (l : List Char) :
    lineTokens (dropLead l) = lineTokens l := by
  induction l with
  | nil => rfl
  | cons c t ih =>
    by_cases hc : jsIsWs c = true
    · have h1 : dropLead (c :: t) = dropLead t := by
        simp [dropLead, List.dropWhile_cons, hc]
      have h2 : lineTokens (c :: t) = lineTokens t := by
        rw [lineTokens, lineTokens,
          show jsSplit jsIsWs (c :: t) = [] :: jsSplit jsIsWs t from by simp [jsSplit, hc]]
        simp [List.filter_cons]
      rw [h1, h2, ih]
    · have h1 : dropLead (c :: t) = c :: t := by
        simp [dropLead, List.dropWhile_cons, hc]
      rw [h1]

theorem dropTrail_decomp (l : List Char) :
    dropTrail l ++ (l.reverse.takeWhile jsIsWs).reverse = l := by
  rw [dropTrail, ← List.reverse_append, List.takeWhile_append_dropWhile jsIsWs l.reverse,
    List.reverse_reverse]

theorem ws_of_mem_trailPart (l : List Char) :
    ∀ c ∈ (l.reverse.takeWhile jsIsWs).reverse, jsIsWs c = true := by
  intro c hc
  rw [List.mem_reverse] at hc
  exact List.mem_takeWhile_imp hc

theorem lineTokens_dropTrail (l : List Char) :
    lineTokens (dropTrail l) = lineTokens l := by
  conv_rhs => rw [← dropTrail_decomp l]
  rw [lineTokens_append_ws _ _ (ws_of_mem_trailPart l)]

theorem not_all_ws_of_tokens_ne_nil (l : List Char) (h : lineTokens l ≠ []) :
    ∃ c ∈ l, jsIsWs c = false := by
  by_contra hno
  push_neg at hno
  refine h (lineTokens_all_ws l (fun c hc => ?_))
  cases hcb : jsIsWs c with
  | false => exact absurd hcb (hno c hc)
  | true => rfl

theorem dropLead_eq_nil_iff (l : List Char) :
    dropLead l = [] ↔ ∀ c ∈ l, jsIsWs c = true := by
  simp [dropLead, List.dropWhile_eq_nil_iff]

theorem dropTrail_eq_nil_iff (l : List Char) :
    dropTrail l = [] ↔ ∀ c ∈ l, jsIsWs c = true := by
  rw [dropTrail, List.reverse_eq_nil_iff, List.dropWhile_eq_nil_iff]
  constructor
  · intro h c hc
    exact h c (List.mem_reverse.mpr hc)
  · intro h c hc
    exact h c (List.mem_reverse.mp hc)

theorem dropLead_ne_nil (l : List Char) (h : lineTokens l ≠ []) : dropLead l ≠ [] := by
  intro he
  obtain ⟨c, hc, hw⟩ := not_all_ws_of_tokens_ne_nil l h
  have := (dropLead_eq_nil_iff l).mp he c hc
  rw [this] at hw
  exact Bool.noConfusion hw

theorem dropTrail_ne_nil_of_sym (l : List Char) (c : Char) (hc : c ∈ l)
    (hw : jsIsWs c = false) : dropTrail l ≠ [] := by
  intro he
  have := (dropTrail_eq_nil_iff l).mp he c hc
  rw [this] at hw
  exact Bool.noConfusion hw

theorem mem_dropLead (l : List Char) (c : Char) (h : c ∈ dropLead l) : c ∈ l :=
  (List.dropWhile_sublist jsIsWs).subset h

theorem mem_dropTrail (l : List Char) (c : Char) (h : c ∈ dropTrail l) : c ∈ l := by
  rw [dropTrail, List.mem_reverse] at h
  exact List.mem_reverse.mp ((List.dropWhile_sublist jsIsWs).subset h)

theorem dropLead_append_left (a b : List Char) (h : dropLead a ≠ []) :
    dropLead (a ++ b) = dropLead a ++ b := by
  rw [dropLead, dropLead, List.dropWhile_append, if_neg]
  intro hie
  exact h (by rw [dropLead]; exact List.isEmpty_iff.mp hie)

theorem dropLead_append_ws (a b : List Char) (h : ∀ c ∈ a, jsIsWs c = true) :
    dropLead (a ++ b) = dropLead b := by
  rw [dropLead, dropLead, List.dropWhile_append, if_pos]
  rw [List.isEmpty_iff, List.dropWhile_eq_nil_iff]
  exact h

theorem dropTrail_append_ws (a b : List Char) (h : ∀ c ∈ b, jsIsWs c = true) :
    dropTrail (a ++ b) = dropTrail a := by
  rw [dropTrail, dropTrail, List.reverse_append, List.dropWhile_append, if_pos]
  rw [List.isEmpty_iff, List.dropWhile_eq_nil_iff]
  intro c hc
  exact h c (List.mem_reverse.mp hc)

theorem dropTrail_append_left (a b : List Char) (h : dropTrail b ≠ []) :
    dropTrail (a ++ b) = a ++ dropTrail b := by
  have hb : b.reverse.dropWhile jsIsWs ≠ [] := by
    intro he
    exact h (by rw [dropTrail, he]; rfl)
  rw [dropTrail, List.reverse_append, List.dropWhile_append, if_neg, List.reverse_append,
    List.reverse_reverse]
  · rfl
  · intro hie
    exact hb (List.isEmpty_iff.mp hie)

theorem joinLines_ne_nil (l : List Char) (ls : List (List Char)) (h : l ≠ []) :
    joinLines (l :: ls) ≠ [] := by
  cases ls with
  | nil => exact h
  | cons l2 t =>
    rw [joinLines_cons_cons]
    simp

theorem mem_joinLines :
    ∀ (ls : List (List Char)) (l : List Char) (c : Char),
      l ∈ ls → c ∈ l → c ∈ joinLines ls := by
  intro ls
  induction ls with
  | nil =>
    intro l c hl _
    exact absurd hl (List.not_mem_nil l)
  | cons x t ih =>
    intro l c hl hc
    cases t with
    | nil =>
      rcases List.mem_cons.mp hl with rfl | h'
      · exact hc
      · exact absurd h' (List.not_mem_nil l)
    | cons y s =>
      rw [joinLines_cons_cons]
      rcases List.mem_cons.mp hl with rfl | h'
      · exact List.mem_append_left _ hc
      · exact List.mem_append_right _ (List.mem_cons_of_mem _ (ih l c h' hc))

theorem dropLead_joinLines (l : List Char) (ls : List (List Char))
    (h : lineTokens l ≠ []) :
    dropLead (joinLines (l :: ls)) = joinLines (dropLead l :: ls) := by
  cases ls with
  | nil => rfl
  | cons l2 t =>
    rw [joinLines_cons_cons, joinLines_cons_cons,
      dropLead_append_left l _ (dropLead_ne_nil l h)]

theorem trimLastLine_cons_cons (l l2 : List Char) (t : List (List Char)) :
    trimLastLine (l :: l2 :: t) = l :: trimLastLine (l2 :: t) := rfl

theorem trimLastLine_ne_nil (l : List Char) (ls : List (List Char)) :
    trimLastLine (l :: ls) ≠ [] := by
  cases ls with
  | nil => simp [trimLastLine]
  | cons l2 t => simp [trimLastLine_cons_cons]

theorem dropTrail_joinLines :
    ∀ ls : List (List Char), ls ≠ [] → (∀ l ∈ ls, lineTokens l ≠ []) →
      dropTrail (joinLines ls) = joinLines (trimLastLine ls) := by
  intro ls
  induction ls with
  | nil => intro h; exact absurd rfl h
  | cons l rest ih =>
    intro _ h
    cases rest with
    | nil => rfl
    | cons l2 t =>
      have hl2 : lineTokens l2 ≠ [] := h l2 (List.mem_cons_of_mem _ (List.mem_cons_self l2 t))
      obtain ⟨c, hcmem, hcw⟩ := not_all_ws_of_tokens_ne_nil l2 hl2
      have hcj : c ∈ joinLines (l2 :: t) := mem_joinLines _ l2 c (List.mem_cons_self l2 t) hcmem
      have hdt : dropTrail (joinLines (l2 :: t)) ≠ [] :=
        dropTrail_ne_nil_of_sym _ c hcj hcw
      have hdt2 : dropTrail ('\n' :: joinLines (l2 :: t)) ≠ [] := by
        have := dropTrail_append_left ['\n'] (joinLines (l2 :: t)) hdt
        rw [show ['\n'] ++ joinLines (l2 :: t) = '\n' :: joinLines (l2 :: t) from rfl] at this
        rw [this]
        simp
      calc dropTrail (joinLines (l :: l2 :: t))
          = dropTrail (l ++ '\n' :: joinLines (l2 :: t)) := by rw [joinLines_cons_cons]
        _ = l ++ dropTrail ('\n' :: joinLines (l2 :: t)) :=
            dropTrail_append_left _ _ hdt2
        _ = l ++ '\n' :: dropTrail (joinLines (l2 :: t)) := by
            have := dropTrail_append_left ['\n'] (joinLines (l2 :: t)) hdt
            rw [show ['\n'] ++ joinLines (l2 :: t) = '\n' :: joinLines (l2 :: t) from rfl] at this
            rw [this]
            rfl
        _ = l ++ '\n' :: joinLines (trimLastLine (l2 :: t)) := by
            rw [ih (by simp) (fun x hx => h x (List.mem_cons_of_mem _ hx))]
        _ = joinLines (l :: trimLastLine (l2 :: t)) := by
            cases htl : trimLastLine (l2 :: t) with
            | nil => exact absurd htl (trimLastLine_ne_nil l2 t)
            | cons a b => rw [joinLines_cons_cons]
        _ = joinLines (trimLastLine (l :: l2 :: t)) := by rw [trimLastLine_cons_cons]

theorem mkEntry_dropLead (l : List Char) : mkEntry (dropLead l) = mkEntry l := by
  simp [mkEntry, lineTokens_dropLead]

theorem mkEntry_dropTrail (l : List Char) : mkEntry (dropTrail l) = mkEntry l := by
  simp [mkEntry, lineTokens_dropTrail]

theorem map_mkEntry_trimLastLine :
    ∀ ls : List (List Char), (trimLastLine ls).map mkEntry = ls.map mkEntry := by
  intro ls
  induction ls with
  | nil => rfl
  | cons l rest ih =>
    cases rest with
    | nil => simp [trimLastLine, mkEntry_dropTrail]
    | cons l2 t =>
      rw [trimLastLine_cons_cons, List.map_cons, List.map_cons, ih]

theorem trimLastLine_forall (P : List Char → Prop)
    (hP : ∀ l, P l → P (dropTrail l)) :
    ∀ ls : List (List Char), (∀ l ∈ ls, P l) → ∀ x ∈ trimLastLine ls, P x := by
  intro ls
  induction ls with
  | nil =>
    intro _ x hx
    exact absurd hx (List.not_mem_nil x)
  | cons l rest ih =>
    intro h x hx
    cases rest with
    | nil =>
      have hx' : x = dropTrail l := by simpa [trimLastLine] using hx
      rw [hx']
      exact hP l (h l (List.mem_cons_self l []))
    | cons l2 t =>
      rw [trimLastLine_cons_cons] at hx
      rcases List.mem_cons.mp hx with rfl | hx'
      · exact h x (List.mem_cons_self x _)
      · exact ih (fun y hy => h y (List.mem_cons_of_mem _ hy)) x hx'

/-- Claim C5: for every well-formed status text, given as surrounding
whitespace plus its list of non-blank newline-free lines, the parser
produces exactly one entry per line, whose modification code is the first
whitespace-delimited token and whose path is the second whitespace-delimited
token of that line; with no lines at all (an empty or whitespace-only
input) the result is the empty list. -/
theorem parseFileList_wellFormed (lead trail : List Char) (ls : List (List Char))
    (hlead : ∀ c ∈ lead, jsIsWs c = true) (htrail : ∀ c ∈ trail, jsIsWs c = true)
    (hls : ∀ l ∈ ls, lineTokens l ≠ [] ∧ '\n' ∉ l) :
    parseFileList (lead ++ joinLines ls ++ trail) = ls.map mkEntry := by
  cases ls with
  | nil =>
    have hws : ∀ c ∈ lead ++ joinLines [] ++ trail, jsIsWs c = true := by
      intro c hc
      rw [show joinLines [] = [] from rfl, List.append_nil] at hc
      rcases List.mem_append.mp hc with hc | hc
      · exact hlead c hc
      · exact htrail c hc
    have htr : jsTrim (lead ++ joinLines [] ++ trail) = [] := by
      rw [jsTrim, (dropLead_eq_nil_iff _).mpr hws]
      rfl
    rw [parseFileList, if_pos htr]
    rfl
  | cons l0 rest =>
    have h0 : lineTokens l0 ≠ [] := (hls l0 (List.mem_cons_self l0 rest)).1
    have hne : dropLead (joinLines (l0 :: rest)) ≠ [] := by
      rw [dropLead_joinLines _ _ h0]
      exact joinLines_ne_nil _ _ (dropLead_ne_nil l0 h0)
    have hdl : dropLead (lead ++ (joinLines (l0 :: rest) ++ trail)) =
        joinLines (dropLead l0 :: rest) ++ trail := by
      rw [dropLead_append_ws _ _ hlead, dropLead_append_left _ _ hne,
        dropLead_joinLines _ _ h0]
    have hall' : ∀ l ∈ (dropLead l0 :: rest), lineTokens l ≠ [] := by
      intro l hl
      rcases List.mem_cons.mp hl with rfl | hl'
      · rw [lineTokens_dropLead]
        exact h0
      · exact (hls l (List.mem_cons_of_mem _ hl')).1
    have hdt : dropTrail (joinLines (dropLead l0 :: rest) ++ trail) =
        joinLines (trimLastLine (dropLead l0 :: rest)) := by
      rw [dropTrail_append_ws _ _ htrail, dropTrail_joinLines _ (by simp) hall']
    have htrim : jsTrim (lead ++ joinLines (l0 :: rest) ++ trail) =
        joinLines (trimLastLine (dropLead l0 :: rest)) := by
      rw [List.append_assoc, jsTrim, hdl, hdt]
    have hls'tok : ∀ l ∈ trimLastLine (dropLead l0 :: rest), lineTokens l ≠ [] := by
      refine trimLastLine_forall (fun l => lineTokens l ≠ []) ?_ _ hall'
      intro l hl
      rw [lineTokens_dropTrail]
      exact hl
    have hls'nl : ∀ l ∈ trimLastLine (dropLead l0 :: rest), '\n' ∉ l := by
      refine trimLastLine_forall (fun l => '\n' ∉ l) ?_ _ ?_
      · intro l hl he
        exact hl (mem_dropTrail l _ he)
      · intro l hl
        rcases List.mem_cons.mp hl with rfl | hl'
        · intro he
          exact (hls l0 (List.mem_cons_self l0 rest)).2 (mem_dropLead l0 _ he)
        · exact (hls l (List.mem_cons_of_mem _ hl')).2
    have hjoin_ne : joinLines (trimLastLine (dropLead l0 :: rest)) ≠ [] := by
      cases hl : trimLastLine (dropLead l0 :: rest) with
      | nil => exact absurd hl (trimLastLine_ne_nil _ _)
      | cons a b =>
        refine joinLines_ne_nil a b ?_
        have ha := hls'tok a (hl ▸ List.mem_cons_self a b)
        intro he
        rw [he] at ha
        exact ha rfl
    rw [parseFileList, if_neg (by rw [htrim]; exact hjoin_ne), htrim,
      splitOnNl_joinLines _ (trimLastLine_ne_nil _ _) hls'nl,
      map_mkEntry_trimLastLine, List.map_cons, List.map_cons, mkEntry_dropLead]

/-- Witness for `parseFileList_wellFormed`: the two-line status text built
from `wfLines` with a trailing newline parses to the expected two entries. -/
theorem parseFileList_wellFormed_witness :
    parseFileList ([] ++ joinLines wfLines ++ ['\n']) = wfLines.map mkEntry ∧
    wfLines.map mkEntry =
      [{ mods := some ['A', 'M'], file := some ['a', '.', 'j', 's'] },
       { mods := some ['D'], file := some ['b', '.', 'j', 's'] }] :=
  ⟨parseFileList_wellFormed [] ['\n'] wfLines (by decide) (by decide) (by decide),
   by decide⟩
